import Mathlib

/-!
Verification of the Mandelbrot explorer (src/main.rs).

The source is a Rust program rendering the Mandelbrot set with SDL2.  Every
numeric computation the claims are about is done in `f64` (via
`num::complex::Complex<f64>`), `i32` and `u32`.  The shallow embedding below
models:

* `f64` values as exact rationals `ℚ` (the claims and spec state the
  arithmetic identities in exact arithmetic; rounding is abstracted away);
* `Complex<f64>` as the structure `Cplx` with rational `re`/`im` components
  and the componentwise/Cauchy operations of the `num` crate;
* `u32`/`i32` as `ℕ`/`ℤ` (Rust integer overflow is a checked program error,
  not a value-producing operation, so counters are modelled unbounded;
  the value-truncating `as u8` cast is modelled explicitly as `% 256`).
-/

namespace Mandelbrot

/-- Complex number with exact rational components; models
`num::complex::Complex<f64>` as used by `src/main.rs`. -/
@[ext]
structure Cplx where
  re : ℚ
  im : ℚ
deriving DecidableEq

/-- Componentwise addition, as in the `num` crate. -/
instance : Add Cplx :=
  ⟨fun a b => ⟨a.re + b.re, a.im + b.im⟩⟩

/-- Componentwise subtraction, as in the `num` crate. -/
instance : Sub Cplx :=
  ⟨fun a b => ⟨a.re - b.re, a.im - b.im⟩⟩

/-- Complex (Cauchy) multiplication, as in the `num` crate. -/
instance : Mul Cplx :=
  ⟨fun a b => ⟨a.re * b.re - a.im * b.im, a.re * b.im + a.im * b.re⟩⟩

/-- Scalar multiplication `Complex<f64> * f64`, as in the `num` crate
(used by the zoom transforms as `d * 0.1`). -/
instance : HMul Cplx ℚ Cplx :=
  ⟨fun z s => ⟨z.re * s, z.im * s⟩⟩

/-- Loop body of `mandelbrot` (src/main.rs lines 14-24): `z` is the current
orbit value, `i` the 0-based index of the step about to be executed, `fuel`
the number of remaining loop steps.  Each step sets `z' = z*z + c` and checks
`z'.re*z'.re + z'.im*z'.im > 4.0`, returning `some i` when the check
succeeds and `none` when the fuel runs out. -/
def mandelbrotAux (c z : Cplx) (i fuel : ℕ) : Option ℕ :=
  match fuel with
  | 0 => none
  | fuel + 1 =>
    let z' := z * z + c
    if z'.re * z'.re + z'.im * z'.im > 4 then some i
    else mandelbrotAux c z' (i + 1) fuel

/-- `fn mandelbrot(c: Complex<f64>, iterations: u32) -> Option<u32>`
(src/main.rs lines 14-24): escape-time evaluator starting at `z = 0+0i`. -/
def mandelbrot (c : Cplx) (iterations : ℕ) : Option ℕ :=
  mandelbrotAux c ⟨0, 0⟩ 0 iterations

/-- The orbit of the quadratic map: `orbit c n` is the value of `z` after `n`
executions of `z = z*z + c` starting from `z = 0+0i`. -/
def orbit (c : Cplx) : ℕ → Cplx
  | 0 => ⟨0, 0⟩
  | n + 1 => orbit c n * orbit c n + c

/-- The escape check of the loop succeeds on the step with 0-based index `i`:
the value `z` after step `i` (which is `orbit c (i+1)`) satisfies
`z.re*z.re + z.im*z.im > 4.0`. -/
def escaped (c : Cplx) (i : ℕ) : Prop :=
  (orbit c (i + 1)).re * (orbit c (i + 1)).re
    + (orbit c (i + 1)).im * (orbit c (i + 1)).im > 4

/-- `fn x_y_to_complex(x: i32, y: i32, window_size: &(u32, u32), view_port:
&(Complex<f64>, Complex<f64>)) -> Complex<f64>` (src/main.rs lines 26-38). -/
def x_y_to_complex (x y : ℤ) (window_size : ℕ × ℕ)
    (view_port : Cplx × Cplx) : Cplx :=
  let rel_x : ℚ := (x : ℚ) / (window_size.1 : ℚ)
  let rel_y : ℚ := (y : ℚ) / (window_size.2 : ℚ)
  let d := view_port.2 - view_port.1
  let re := view_port.1.re + rel_x * d.re
  let im := view_port.1.im + rel_y * d.im
  ⟨re, im⟩

/-- Per-pixel colouring closure of `draw_fractal` (src/main.rs lines 62-72):
`Some(iter)` yields `c = (255 * iter / iterations) as u8` and the RGB bytes
`[c / 2, c, c]`; `None` yields `[0, 0, 0]`.  The `u32` arithmetic
`255 * iter / iterations` is modelled on `ℕ` (overflow is a checked error in
Rust, not a wrap); the `as u8` cast is the truncation `% 256`; `c / 2` is the
`u8` integer division. -/
def paint (result : Option ℕ) (iterations : ℕ) : ℕ × ℕ × ℕ :=
  match result with
  | some iter =>
    let c := 255 * iter / iterations % 256
    (c / 2, c, c)
  | none => (0, 0, 0)

/-- Right-click zoom-out transition (src/main.rs lines 188-191):
`d = view_port.1 - view_port.0; view_port.0 -= d * 0.1; view_port.1 += d * 0.1`. -/
def zoom_out (view_port : Cplx × Cplx) : Cplx × Cplx :=
  let d := view_port.2 - view_port.1
  (view_port.1 - d * (0.1 : ℚ), view_port.2 + d * (0.1 : ℚ))

/-- The `rel_click` value of the left-click handler (src/main.rs lines
161-172): the click pixel is mapped through `x_y_to_complex` and the result
is re-expressed relative to the viewport, componentwise divided by the span
`d = view_port.1 - view_port.0`. -/
def rel_click (view_port : Cplx × Cplx) (x y : ℤ)
    (window_size : ℕ × ℕ) : ℚ × ℚ :=
  let d := view_port.2 - view_port.1
  let click_point := x_y_to_complex x y window_size view_port
  ((click_point.re - view_port.1.re) / d.re,
   (click_point.im - view_port.1.im) / d.im)

/-- Left-click zoom-in transition (src/main.rs lines 161-180): shrinks the
viewport by 10% per axis, biased toward the click point through `rel_click`. -/
def zoom_in (view_port : Cplx × Cplx) (x y : ℤ)
    (window_size : ℕ × ℕ) : Cplx × Cplx :=
  let d := view_port.2 - view_port.1
  let rel := rel_click view_port x y window_size
  (⟨view_port.1.re + d.re * (0.1 : ℚ) * rel.1,
    view_port.1.im + d.im * (0.1 : ℚ) * rel.2⟩,
   ⟨view_port.2.re - d.re * (0.1 : ℚ) * (1 - rel.1),
    view_port.2.im - d.im * (0.1 : ℚ) * (1 - rel.2)⟩)

/-- Keyboard events acting on the iteration depth (src/main.rs lines
126-155): `inc` is `Keycode::KpPlus`, `dec` is `Keycode::KpMinus`. -/
inductive DepthEvent where
  | inc : DepthEvent
  | dec : DepthEvent

/-- Effect of one depth event on `iterations` (src/main.rs lines 126-155):
`KpPlus` does `iterations += 100`; `KpMinus` does `iterations -= 100` only
when `iterations > 100`.  `iterations: u32` is modelled as `ℕ` (overflow of
`+= 100` is a checked program error in Rust). -/
def depth_step (iterations : ℕ) (e : DepthEvent) : ℕ :=
  match e with
  | DepthEvent.inc => iterations + 100
  | DepthEvent.dec => if iterations > 100 then iterations - 100 else iterations

/-- Initial viewport `(Complex::new(-2.0, -1.5), Complex::new(2.0, 1.5))`
(src/main.rs line 103). -/
def default_view_port : Cplx × Cplx :=
  (⟨-2, -1.5⟩, ⟨2, 1.5⟩)

/-- Initial iteration depth `let mut iterations = 200` (src/main.rs line 104). -/
def initial_iterations : ℕ := 200

/-! ### Projection lemmas for the `Cplx` operations -/

@[simp] theorem Cplx.add_re (a b : Cplx) : (a + b).re = a.re + b.re := rfl

@[simp] theorem Cplx.add_im (a b : Cplx) : (a + b).im = a.im + b.im := rfl

@[simp] theorem Cplx.sub_re (a b : Cplx) : (a - b).re = a.re - b.re := rfl

@[simp] theorem Cplx.sub_im (a b : Cplx) : (a - b).im = a.im - b.im := rfl

@[simp] theorem Cplx.mul_re (a b : Cplx) :
    (a * b).re = a.re * b.re - a.im * b.im := rfl

@[simp] theorem Cplx.mul_im (a b : Cplx) :
    (a * b).im = a.re * b.im + a.im * b.re := rfl

@[simp] theorem Cplx.smul_re (z : Cplx) (s : ℚ) : (z * s).re = z.re * s := rfl

@[simp] theorem Cplx.smul_im (z : Cplx) (s : ℚ) : (z * s).im = z.im * s := rfl

/-! ### Characterization of the escape-time loop -/

theorem mandelbrotAux_succ (c z : Cplx) (i fuel : ℕ) :
    mandelbrotAux c z i (fuel + 1) =
      if (z * z + c).re * (z * z + c).re + (z * z + c).im * (z * z + c).im > 4
      then some i
      else mandelbrotAux c (z * z + c) (i + 1) fuel := rfl

theorem escaped_iff (c : Cplx) (i : ℕ) :
    escaped c i ↔
      (orbit c i * orbit c i + c).re * (orbit c i * orbit c i + c).re
        + (orbit c i * orbit c i + c).im * (orbit c i * orbit c i + c).im
        > 4 :=
  Iff.rfl

theorem mandelbrotAux_some_iff (c : Cplx) (fuel : ℕ) :
    ∀ i k : ℕ,
      mandelbrotAux c (orbit c i) i fuel = some k ↔
        i ≤ k ∧ k < i + fuel ∧ escaped c k ∧
          ∀ j, i ≤ j → j < k → ¬ escaped c j := by
  induction fuel with
  | zero =>
    intro i k
    constructor
    · intro h
      simp [mandelbrotAux] at h
    · rintro ⟨h1, h2, -, -⟩
      omega
  | succ fuel ih =>
    intro i k
    rw [mandelbrotAux_succ]
    by_cases hesc : escaped c i
    · rw [if_pos ((escaped_iff c i).mp hesc)]
      constructor
      · intro h
        have hik : i = k := by
          injection h
        subst hik
        exact ⟨le_rfl, by omega, hesc, fun j h1 h2 => absurd h2 (by omega)⟩
      · rintro ⟨h1, h2, h3, h4⟩
        have hik : i = k := by
          by_contra hne
          exact h4 i le_rfl (by omega) hesc
        rw [hik]
    · rw [if_neg (fun hcond => hesc ((escaped_iff c i).mpr hcond))]
      have horb : orbit c i * orbit c i + c = orbit c (i + 1) := rfl
      rw [horb, ih (i + 1) k]
      constructor
      · rintro ⟨h1, h2, h3, h4⟩
        refine ⟨by omega, by omega, h3, ?_⟩
        intro j hj1 hj2
        rcases Nat.eq_or_lt_of_le hj1 with heq | hlt
        · rw [← heq]; exact hesc
        · exact h4 j hlt hj2
      · rintro ⟨h1, h2, h3, h4⟩
        have hik : i ≠ k := by
          rintro rfl
          exact hesc h3
        exact ⟨by omega, by omega, h3, fun j hj1 hj2 => h4 j (by omega) hj2⟩

theorem mandelbrotAux_none_iff (c : Cplx) (fuel : ℕ) :
    ∀ i : ℕ,
      mandelbrotAux c (orbit c i) i fuel = none ↔
        ∀ j, i ≤ j → j < i + fuel → ¬ escaped c j := by
  induction fuel with
  | zero =>
    intro i
    simp only [mandelbrotAux]
    constructor
    · intro _ j h1 h2
      omega
    · intro _
      trivial
  | succ fuel ih =>
    intro i
    rw [mandelbrotAux_succ]
    by_cases hesc : escaped c i
    · rw [if_pos ((escaped_iff c i).mp hesc)]
      constructor
      · intro h
        simp at h
      · intro h
        exact absurd hesc (h i le_rfl (by omega))
    · rw [if_neg (fun hcond => hesc ((escaped_iff c i).mpr hcond))]
      have horb : orbit c i * orbit c i + c = orbit c (i + 1) := rfl
      rw [horb, ih (i + 1)]
      constructor
      · intro h j hj1 hj2
        rcases Nat.eq_or_lt_of_le hj1 with heq | hlt
        · rw [← heq]; exact hesc
        · exact h j hlt (by omega)
      · intro h j hj1 hj2
        exact h j (by omega) (by omega)

theorem mandelbrot_eq_some_iff (c : Cplx) (n k : ℕ) :
    mandelbrot c n = some k ↔
      k < n ∧ escaped c k ∧ ∀ j < k, ¬ escaped c j := by
  have h0 : (⟨0, 0⟩ : Cplx) = orbit c 0 := rfl
  unfold mandelbrot
  rw [h0, mandelbrotAux_some_iff]
  constructor
  · rintro ⟨-, h2, h3, h4⟩
    exact ⟨by omega, h3, fun j hj => h4 j (by omega) hj⟩
  · rintro ⟨h1, h2, h3⟩
    exact ⟨by omega, by omega, h2, fun j _ hj => h3 j hj⟩

theorem mandelbrot_eq_none_iff (c : Cplx) (n : ℕ) :
    mandelbrot c n = none ↔ ∀ j < n, ¬ escaped c j := by
  have h0 : (⟨0, 0⟩ : Cplx) = orbit c 0 := rfl
  unfold mandelbrot
  rw [h0, mandelbrotAux_none_iff]
  constructor
  · intro h j hj
    exact h j (by omega) (by omega)
  · intro h j _ hj
    exact h j (by omega)

/-- C1: for every complex point `c` and every maximum iteration count `n`,
the escape-time evaluator starts at `z = 0+0i`, repeatedly sets `z` to
`z*z + c`, and after each step checks whether `z.re*z.re + z.im*z.im > 4.0`;
it returns `some i` exactly when the check first succeeds on the step with
0-based index `i` (that is, `escaped c i` holds, no earlier step escapes,
and `i < n`), and returns `none` exactly when none of the `n` steps
escapes. -/
theorem mandelbrot_escape_characterization (c : Cplx) (n i : ℕ) :
    (mandelbrot c n = some i ↔
      i < n ∧ escaped c i ∧ ∀ j < i, ¬ escaped c j) ∧
    (mandelbrot c n = none ↔ ∀ j < n, ¬ escaped c j) :=
  ⟨mandelbrot_eq_some_iff c n i, mandelbrot_eq_none_iff c n⟩

/-- C4: the escape-time evaluator is monotone in the iteration bound: if it
returns `some k` at depth `n` then it returns `some k` at every depth
`m ≥ k + 1`, and if it returns `none` at depth `n` then it returns `none`
at every depth `m ≤ n`. -/
theorem mandelbrot_monotone (c : Cplx) (n m k : ℕ) :
    (mandelbrot c n = some k → k + 1 ≤ m → mandelbrot c m = some k) ∧
    (mandelbrot c n = none → m ≤ n → mandelbrot c m = none) := by
  constructor
  · intro h hm
    rw [mandelbrot_eq_some_iff] at h ⊢
    exact ⟨by omega, h.2.1, h.2.2⟩
  · intro h hm
    rw [mandelbrot_eq_none_iff] at h ⊢
    intro j hj
    exact h j (by omega)

/-- Witness for C4: `mandelbrot (3+0i) 1 = some 0` (the point escapes on the
very first step), hence `mandelbrot (3+0i) 5 = some 0`; and
`mandelbrot (0+0i) 5 = none` (the origin never escapes), hence
`mandelbrot (0+0i) 2 = none`. -/
theorem mandelbrot_monotone_witness :
    mandelbrot ⟨3, 0⟩ 5 = some 0 ∧ mandelbrot ⟨0, 0⟩ 2 = none :=
  ⟨(mandelbrot_monotone ⟨3, 0⟩ 1 5 0).1
      (by norm_num [mandelbrot, mandelbrotAux]) (by norm_num),
   (mandelbrot_monotone ⟨0, 0⟩ 5 2 0).2
      (by norm_num [mandelbrot, mandelbrotAux]) (by norm_num)⟩

/-! ### The pixel-to-complex mapper -/

@[simp] theorem x_y_to_complex_re (x y : ℤ) (w h : ℕ) (tl br : Cplx) :
    (x_y_to_complex x y (w, h) (tl, br)).re =
      tl.re + (x : ℚ) / (w : ℚ) * (br.re - tl.re) := rfl

@[simp] theorem x_y_to_complex_im (x y : ℤ) (w h : ℕ) (tl br : Cplx) :
    (x_y_to_complex x y (w, h) (tl, br)).im =
      tl.im + (y : ℚ) / (h : ℚ) * (br.im - tl.im) := rfl

/-- C2: for every pixel coordinate `(x, y)`, window size `(w, h)` with
non-zero components, and viewport `(tl, br)`, the mapper returns the complex
point with real part `tl.re + (x/w) * (br.re - tl.re)` and imaginary part
`tl.im + (y/h) * (br.im - tl.im)`. -/
theorem x_y_to_complex_formula (x y : ℤ) (w h : ℕ) (tl br : Cplx)
    (hw : w ≠ 0) (hh : h ≠ 0) :
    x_y_to_complex x y (w, h) (tl, br) =
      ⟨tl.re + (x : ℚ) / (w : ℚ) * (br.re - tl.re),
       tl.im + (y : ℚ) / (h : ℚ) * (br.im - tl.im)⟩ := rfl

/-- Witness for C2: pixel `(1, 1)` in a `2 × 2` window with viewport
`(0+0i, 1+1i)` maps to the formula value `(1/2, 1/2)`. -/
theorem x_y_to_complex_formula_witness :
    x_y_to_complex 1 1 (2, 2) (⟨0, 0⟩, ⟨1, 1⟩) =
      ⟨(0 : ℚ) + ((1 : ℤ) : ℚ) / ((2 : ℕ) : ℚ) * ((1 : ℚ) - (0 : ℚ)),
       (0 : ℚ) + ((1 : ℤ) : ℚ) / ((2 : ℕ) : ℚ) * ((1 : ℚ) - (0 : ℚ))⟩ :=
  x_y_to_complex_formula 1 1 2 2 ⟨0, 0⟩ ⟨1, 1⟩ (by norm_num) (by norm_num)

/-- Linear interpolation `a + r * (b - a)` with `0 ≤ r ≤ 1` stays in the
closed interval spanned by `a` and `b`. -/
theorem lerp_mem (a b r : ℚ) (h0 : 0 ≤ r) (h1 : r ≤ 1) :
    min a b ≤ a + r * (b - a) ∧ a + r * (b - a) ≤ max a b := by
  rcases le_total a b with hab | hab
  · rw [min_eq_left hab, max_eq_right hab]
    constructor <;> nlinarith
  · rw [min_eq_right hab, max_eq_left hab]
    constructor <;> nlinarith

/-- Linear interpolation with ratio `r ≠ 1` misses the far endpoint when the
span is non-zero. -/
theorem lerp_ne_endpoint (a b r : ℚ) (hd : b - a ≠ 0) (hr : r ≠ 1) :
    a + r * (b - a) ≠ b := by
  intro h
  have h2 : (r - 1) * (b - a) = 0 := by linear_combination h
  rcases mul_eq_zero.mp h2 with h3 | h3
  · exact hr (by linarith)
  · exact hd h3

/-- C5: for every pixel coordinate with `0 ≤ x < w` and `0 ≤ y < h` and
every viewport with non-zero spans, the mapped point lies within the
rectangle spanned by the viewport corners; at pixel `(0, 0)` it equals the
top-left corner exactly, and at pixel `(w-1, h-1)` it differs from the
bottom-right corner on both axes. -/
theorem x_y_to_complex_in_viewport (w h : ℕ) (x y : ℤ) (tl br : Cplx)
    (hw : 0 < w) (hh : 0 < h)
    (hx0 : 0 ≤ x) (hxw : x < (w : ℤ)) (hy0 : 0 ≤ y) (hyh : y < (h : ℤ))
    (hdre : br.re - tl.re ≠ 0) (hdim : br.im - tl.im ≠ 0) :
    (min tl.re br.re ≤ (x_y_to_complex x y (w, h) (tl, br)).re ∧
     (x_y_to_complex x y (w, h) (tl, br)).re ≤ max tl.re br.re ∧
     min tl.im br.im ≤ (x_y_to_complex x y (w, h) (tl, br)).im ∧
     (x_y_to_complex x y (w, h) (tl, br)).im ≤ max tl.im br.im) ∧
    x_y_to_complex 0 0 (w, h) (tl, br) = tl ∧
    (x_y_to_complex ((w : ℤ) - 1) ((h : ℤ) - 1) (w, h) (tl, br)).re ≠ br.re ∧
    (x_y_to_complex ((w : ℤ) - 1) ((h : ℤ) - 1) (w, h) (tl, br)).im ≠ br.im := by
  have hwq : (0 : ℚ) < (w : ℚ) := by exact_mod_cast hw
  have hhq : (0 : ℚ) < (h : ℚ) := by exact_mod_cast hh
  have hrx0 : 0 ≤ (x : ℚ) / (w : ℚ) :=
    div_nonneg (by exact_mod_cast hx0) (le_of_lt hwq)
  have hrx1 : (x : ℚ) / (w : ℚ) ≤ 1 := by
    rw [div_le_one hwq]
    exact_mod_cast le_of_lt hxw
  have hry0 : 0 ≤ (y : ℚ) / (h : ℚ) :=
    div_nonneg (by exact_mod_cast hy0) (le_of_lt hhq)
  have hry1 : (y : ℚ) / (h : ℚ) ≤ 1 := by
    rw [div_le_one hhq]
    exact_mod_cast le_of_lt hyh
  refine ⟨⟨?_, ?_, ?_, ?_⟩, ?_, ?_, ?_⟩
  · rw [x_y_to_complex_re]
    exact (lerp_mem tl.re br.re _ hrx0 hrx1).1
  · rw [x_y_to_complex_re]
    exact (lerp_mem tl.re br.re _ hrx0 hrx1).2
  · rw [x_y_to_complex_im]
    exact (lerp_mem tl.im br.im _ hry0 hry1).1
  · rw [x_y_to_complex_im]
    exact (lerp_mem tl.im br.im _ hry0 hry1).2
  · ext
    · rw [x_y_to_complex_re]
      norm_num
    · rw [x_y_to_complex_im]
      norm_num
  · rw [x_y_to_complex_re]
    refine lerp_ne_endpoint tl.re br.re _ hdre ?_
    have hcast : (((w : ℤ) - 1 : ℤ) : ℚ) = (w : ℚ) - 1 := by push_cast; ring
    rw [hcast]
    intro hone
    have := (div_eq_iff (ne_of_gt hwq)).mp hone
    linarith
  · rw [x_y_to_complex_im]
    refine lerp_ne_endpoint tl.im br.im _ hdim ?_
    have hcast : (((h : ℤ) - 1 : ℤ) : ℚ) = (h : ℚ) - 1 := by push_cast; ring
    rw [hcast]
    intro hone
    have := (div_eq_iff (ne_of_gt hhq)).mp hone
    linarith

/-- Witness for C5: in a `2 × 2` window with the default viewport corners,
pixel `(1, 1)` maps inside the rectangle, pixel `(0, 0)` maps exactly to the
top-left corner, and pixel `(1, 1) = (w-1, h-1)` misses the bottom-right
corner on both axes. -/
theorem x_y_to_complex_in_viewport_witness :
    (min (Cplx.mk (-2) (-3/2)).re (Cplx.mk 2 (3/2)).re ≤
        (x_y_to_complex 1 1 (2, 2) (⟨-2, -3/2⟩, ⟨2, 3/2⟩)).re ∧
      (x_y_to_complex 1 1 (2, 2) (⟨-2, -3/2⟩, ⟨2, 3/2⟩)).re ≤
        max (Cplx.mk (-2) (-3/2)).re (Cplx.mk 2 (3/2)).re ∧
      min (Cplx.mk (-2) (-3/2)).im (Cplx.mk 2 (3/2)).im ≤
        (x_y_to_complex 1 1 (2, 2) (⟨-2, -3/2⟩, ⟨2, 3/2⟩)).im ∧
      (x_y_to_complex 1 1 (2, 2) (⟨-2, -3/2⟩, ⟨2, 3/2⟩)).im ≤
        max (Cplx.mk (-2) (-3/2)).im (Cplx.mk 2 (3/2)).im) ∧
    x_y_to_complex 0 0 (2, 2) (⟨-2, -3/2⟩, ⟨2, 3/2⟩) = ⟨-2, -3/2⟩ ∧
    (x_y_to_complex (((2 : ℕ) : ℤ) - 1) (((2 : ℕ) : ℤ) - 1) (2, 2)
        (⟨-2, -3/2⟩, ⟨2, 3/2⟩)).re ≠ (Cplx.mk 2 (3/2)).re ∧
    (x_y_to_complex (((2 : ℕ) : ℤ) - 1) (((2 : ℕ) : ℤ) - 1) (2, 2)
        (⟨-2, -3/2⟩, ⟨2, 3/2⟩)).im ≠ (Cplx.mk 2 (3/2)).im :=
  x_y_to_complex_in_viewport 2 2 1 1 ⟨-2, -3/2⟩ ⟨2, 3/2⟩
    (by norm_num) (by norm_num) (by norm_num) (by norm_num)
    (by norm_num) (by norm_num) (by norm_num) (by norm_num)

/-! ### The colour mapping -/

/-- C3: the colour mapping produces `(0,0,0)` for a non-escaped pixel, and
for a pixel escaped at iteration `i < m` produces `(c/2, c, c)` where
`c = ⌊255 * i / m⌋` fits in a byte; in particular `paint none k = (0,0,0)`,
`paint (some 0) 200 = (0,0,0)` and `paint (some 199) 200 = (126,253,253)`.
The hypothesis `i < m` holds for every actual escape result: `mandelbrot`
only returns `some i` with `i` below the iteration bound. -/
theorem paint_spec (i m k : ℕ) (hm : 0 < m) (him : i < m) :
    paint none k = (0, 0, 0) ∧
    255 * i / m < 256 ∧
    paint (some i) m = (255 * i / m / 2, 255 * i / m, 255 * i / m) ∧
    paint (some 0) 200 = (0, 0, 0) ∧
    paint (some 199) 200 = (126, 253, 253) := by
  have hb : 255 * i / m < 256 := by
    rw [Nat.div_lt_iff_lt_mul hm]
    omega
  refine ⟨rfl, hb, ?_, by decide, by decide⟩
  simp [paint, Nat.mod_eq_of_lt hb]

/-- Witness for C3: instantiated at the escape result `some 199` with depth
`200`, where the gradient value is `⌊255 * 199 / 200⌋ = 253` and the colour
is `(126, 253, 253)`. -/
theorem paint_spec_witness :
    paint none 7 = (0, 0, 0) ∧
    255 * 199 / 200 < 256 ∧
    paint (some 199) 200 =
      (255 * 199 / 200 / 2, 255 * 199 / 200, 255 * 199 / 200) ∧
    paint (some 0) 200 = (0, 0, 0) ∧
    paint (some 199) 200 = (126, 253, 253) :=
  paint_spec 199 200 7 (by norm_num) (by norm_num)

/-! ### The zoom transforms -/

/-- C6: a zoom-out replaces the viewport `(tl, br)` with
`(tl - d*0.1, br + d*0.1)` where `d = br - tl`, independent of pointer
position; applied once to the default viewport it yields top-left
`(-2.4, -1.8)` and bottom-right `(2.4, 1.8)` exactly. -/
theorem zoom_out_spec :
    (∀ tl br : Cplx,
      zoom_out (tl, br) =
        (tl - (br - tl) * (0.1 : ℚ), br + (br - tl) * (0.1 : ℚ))) ∧
    zoom_out default_view_port = (⟨-2.4, -1.8⟩, ⟨2.4, 1.8⟩) := by
  refine ⟨fun tl br => rfl, ?_⟩
  norm_num [zoom_out, default_view_port, Prod.ext_iff, Cplx.ext_iff]

/-- C7: a zoom-in at a click with relative position `rel` replaces the
viewport with `topLeft + d*0.1*rel` and `bottomRight - d*0.1*(1 - rel)`
per axis where `d = bottomRight - topLeft`; a click mapping to the centre of
the default viewport (pixel `(400, 300)` of an `800 × 600` window) gives
`rel = (1/2, 1/2)` and the new viewport `(-1.8, -1.35)`, `(1.8, 1.35)`. -/
theorem zoom_in_spec :
    (∀ (vp : Cplx × Cplx) (x y : ℤ) (ws : ℕ × ℕ),
      zoom_in vp x y ws =
        (⟨vp.1.re + (vp.2.re - vp.1.re) * (0.1 : ℚ) * (rel_click vp x y ws).1,
          vp.1.im + (vp.2.im - vp.1.im) * (0.1 : ℚ) * (rel_click vp x y ws).2⟩,
         ⟨vp.2.re - (vp.2.re - vp.1.re) * (0.1 : ℚ)
            * (1 - (rel_click vp x y ws).1),
          vp.2.im - (vp.2.im - vp.1.im) * (0.1 : ℚ)
            * (1 - (rel_click vp x y ws).2)⟩)) ∧
    rel_click default_view_port 400 300 (800, 600) = (1/2, 1/2) ∧
    zoom_in default_view_port 400 300 (800, 600) =
      (⟨-1.8, -1.35⟩, ⟨1.8, 1.35⟩) := by
  refine ⟨fun vp x y ws => rfl, ?_, ?_⟩
  · norm_num [rel_click, x_y_to_complex, default_view_port, Prod.ext_iff]
  · norm_num [zoom_in, rel_click, x_y_to_complex, default_view_port,
      Prod.ext_iff, Cplx.ext_iff]

/-! ### The iteration-depth state machine -/

theorem depth_step_invariant (e : DepthEvent) (d : ℕ)
    (h1 : 100 ≤ d) (h2 : 100 ∣ d) :
    100 ≤ depth_step d e ∧ 100 ∣ depth_step d e := by
  cases e with
  | inc =>
    simp only [depth_step]
    omega
  | dec =>
    simp only [depth_step]
    split <;> omega

theorem depth_foldl_invariant (es : List DepthEvent) :
    ∀ d : ℕ, 100 ≤ d → 100 ∣ d →
      100 ≤ List.foldl depth_step d es ∧ 100 ∣ List.foldl depth_step d es := by
  induction es with
  | nil =>
    intro d h1 h2
    exact ⟨h1, h2⟩
  | cons e es ih =>
    intro d h1 h2
    have h3 := depth_step_invariant e d h1 h2
    simpa using ih (depth_step d e) h3.1 h3.2

/-- C8: the depth is decremented by 100 only when strictly greater than 100;
starting from the initial depth 200 and applying any sequence of increment
and decrement events, the depth never drops below 100; from 200 one
decrement yields 100 and a further decrement leaves it at 100. -/
theorem depth_floor :
    (∀ es : List DepthEvent,
      100 ≤ List.foldl depth_step initial_iterations es) ∧
    depth_step 200 DepthEvent.dec = 100 ∧
    depth_step 100 DepthEvent.dec = 100 :=
  ⟨fun es => (depth_foldl_invariant es 200 (by norm_num) (by norm_num)).1,
   rfl, rfl⟩

/-- C9: every increase-depth event adds exactly 100 to the iteration depth,
for every depth value and with no upper bound. -/
theorem depth_increase (d : ℕ) : depth_step d DepthEvent.inc = d + 100 := rfl

/-! ### The relative click position -/

theorem rel_click_fst (tl br : Cplx) (x y : ℤ) (w h : ℕ) :
    (rel_click (tl, br) x y (w, h)).1 =
      ((x_y_to_complex x y (w, h) (tl, br)).re - tl.re) / (br.re - tl.re) :=
  rfl

theorem rel_click_snd (tl br : Cplx) (x y : ℤ) (w h : ℕ) :
    (rel_click (tl, br) x y (w, h)).2 =
      ((x_y_to_complex x y (w, h) (tl, br)).im - tl.im) / (br.im - tl.im) :=
  rfl

/-- C10: the relative click position computed by mapping the pixel into the
complex plane and dividing back by the viewport span equals, in exact
arithmetic, the plain pixel fraction `(x/w, y/h)`: the viewport cancels out
for every viewport with non-zero spans. -/
theorem rel_click_pixel_fraction (tl br : Cplx) (x y : ℤ) (w h : ℕ)
    (hw : w ≠ 0) (hh : h ≠ 0)
    (hdre : br.re - tl.re ≠ 0) (hdim : br.im - tl.im ≠ 0) :
    rel_click (tl, br) x y (w, h) = ((x : ℚ) / (w : ℚ), (y : ℚ) / (h : ℚ)) := by
  have h1 : (rel_click (tl, br) x y (w, h)).1 = (x : ℚ) / (w : ℚ) := by
    rw [rel_click_fst, x_y_to_complex_re, div_eq_iff hdre]
    ring
  have h2 : (rel_click (tl, br) x y (w, h)).2 = (y : ℚ) / (h : ℚ) := by
    rw [rel_click_snd, x_y_to_complex_im, div_eq_iff hdim]
    ring
  calc rel_click (tl, br) x y (w, h)
      = ((rel_click (tl, br) x y (w, h)).1,
         (rel_click (tl, br) x y (w, h)).2) := rfl
    _ = ((x : ℚ) / (w : ℚ), (y : ℚ) / (h : ℚ)) := by rw [h1, h2]

/-- Witness for C10: pixel `(1, 1)` in a `2 × 2` window over the unit-square
viewport yields exactly the pixel fraction `(1/2, 1/2)`. -/
theorem rel_click_pixel_fraction_witness :
    rel_click (⟨0, 0⟩, ⟨1, 1⟩) 1 1 (2, 2) =
      (((1 : ℤ) : ℚ) / ((2 : ℕ) : ℚ), ((1 : ℤ) : ℚ) / ((2 : ℕ) : ℚ)) :=
  rel_click_pixel_fraction ⟨0, 0⟩ ⟨1, 1⟩ 1 1 2 2
    (by norm_num) (by norm_num) (by norm_num) (by norm_num)

end Mandelbrot
